import Mathlib

/-!
Shallow embedding of the `credentials.rs` module of the `aws-mfa`
repository: the section parser (`ConfigFile::from_path`), the record
store (`remove_credential`, `set_credential`) and the serializer
(`ToString for ConfigFile` / `Credential`).

Strings are modelled as `List Char`; a text file is a `List Char` and a
sequence of already-split lines is a `List (List Char)`.
-/

/-- Index of the last `]` in a list of characters (the end position the
greedy `.+` of the regex `\[(.+)\]` backtracks to), `none` if there is
no `]`.  Mirrors the greedy behaviour of the `regex` crate on this
pattern. -/
def lastCloseIdx : List Char → Option Nat
  | [] => none
  | c :: rest =>
    match lastCloseIdx rest with
    | some m => some (m + 1)
    | none => if c = ']' then some 0 else none

/-- Greedy match of `(.+)\]` against `t` (the text after an opening
bracket): `.` matches any character except `'\n'`, `.+` is greedy, so the
capture runs to the last `]` reachable without crossing a newline, and at
least one character must stand before that `]`. -/
def greedyBracketEnd (t : List Char) : Option (List Char) :=
  let r := t.takeWhile (fun c => decide (c ≠ '\n'))
  match lastCloseIdx r with
  | some m => if 1 ≤ m then some (r.take m) else none
  | none => none

/-- `capture_profile` from `credentials.rs`: first capture group of the
regex `\[(.+)\]` (crate `regex`, leftmost match, greedy `.+`), applied to
one line.  The match attempt starts at each position in turn (leftmost
semantics); at an `[` the greedy tail `(.+)\]` is tried. -/
def capture_profile : List Char → Option (List Char)
  | [] => none
  | c :: rest =>
    if c = '[' then
      match greedyBracketEnd rest with
      | some cap => some cap
      | none => capture_profile rest
    else capture_profile rest

/-- `Credential` from `credentials.rs`: a profile name and the free-form
body lines under its section header. -/
structure Credential where
  profile : List Char
  lines : List (List Char)
deriving DecidableEq, Repr

/-- `ConfigFile` from `credentials.rs`: the ordered collection of
credentials. -/
structure ConfigFile where
  credentials : List Credential
deriving DecidableEq, Repr

/-- `ConfigFile::add_credential`: push `Credential::new(p, ls)` onto the
vector unless the pending profile name `p` is empty. -/
def ConfigFile.add_credential (p : List Char) (ls : List (List Char))
    (creds : List Credential) : List Credential :=
  if p = [] then creds else creds ++ [⟨p, ls⟩]

/-- The loop body of `ConfigFile::from_path`, with the line source already
split into lines: state is the pending profile name, the pending body
lines and the credentials accumulated so far. -/
def ConfigFile.from_lines_loop :
    List (List Char) → List Char → List (List Char) → List Credential → List Credential
  | [], profile, ls, creds => ConfigFile.add_credential profile ls creds
  | line :: rest, profile, ls, creds =>
    match capture_profile line with
    | some p =>
      ConfigFile.from_lines_loop rest p [] (ConfigFile.add_credential profile ls creds)
    | none =>
      if line = [] then ConfigFile.from_lines_loop rest profile ls creds
      else ConfigFile.from_lines_loop rest profile (ls ++ [line]) creds

/-- `ConfigFile::from_path` restricted to an error-free line source: parse
a list of lines into a `ConfigFile` (initial state: empty pending profile,
no pending lines, no credentials). -/
def ConfigFile.from_lines (input : List (List Char)) : ConfigFile :=
  ⟨ConfigFile.from_lines_loop input [] [] []⟩

/-- The loop of `ConfigFile::from_path` over a fallible line source
(`BufReader::lines` yields `io::Result<String>`; `let line = l?` returns
the first error immediately). -/
def ConfigFile.from_read_results {ε : Type} :
    List (Except ε (List Char)) → List Char → List (List Char) → List Credential →
      Except ε (List Credential)
  | [], profile, ls, creds => Except.ok (ConfigFile.add_credential profile ls creds)
  | Except.error e :: _, _, _, _ => Except.error e
  | Except.ok line :: rest, profile, ls, creds =>
    match capture_profile line with
    | some p =>
      ConfigFile.from_read_results rest p [] (ConfigFile.add_credential profile ls creds)
    | none =>
      if line = [] then ConfigFile.from_read_results rest profile ls creds
      else ConfigFile.from_read_results rest profile (ls ++ [line]) creds

/-- `ConfigFile::from_path` over a fallible line source. -/
def ConfigFile.from_path {ε : Type} (input : List (Except ε (List Char))) :
    Except ε ConfigFile :=
  (ConfigFile.from_read_results input [] [] []).map ConfigFile.mk

/-- `ToString for Credential`: `format!("[{}]\n{}", profile, lines.join("\n"))`. -/
def Credential.to_string (c : Credential) : List Char :=
  '[' :: (c.profile ++ [']', '\n'] ++ List.intercalate ['\n'] c.lines)

/-- `ToString for ConfigFile`: render every credential and join the pieces
with `"\n\n"`. -/
def ConfigFile.to_string (c : ConfigFile) : List Char :=
  List.intercalate ['\n', '\n'] (c.credentials.map Credential.to_string)

/-- `ConfigFile::remove_credential`: keep exactly the credentials whose
profile differs from the given one. -/
def ConfigFile.remove_credential (c : ConfigFile) (profile : List Char) : ConfigFile :=
  ⟨c.credentials.filter (fun cred => decide (cred.profile ≠ profile))⟩

/-- `ConfigFile::set_credential`: push the credential at the end. -/
def ConfigFile.set_credential (c : ConfigFile) (cred : Credential) : ConfigFile :=
  ⟨c.credentials ++ [cred]⟩

/-- Split a text at each `'\n'`, keeping the (possibly empty) fragment
after the last `'\n'` as a final fragment.  Always returns at least one
fragment. -/
def splitLinesCore : List Char → List (List Char)
  | [] => [[]]
  | c :: rest =>
    if c = '\n' then [] :: splitLinesCore rest
    else
      match splitLinesCore rest with
      | l :: ls => (c :: l) :: ls
      | [] => [[c]]

/-- Drop one trailing `'\r'`, if any (`BufRead::lines` strips a CRLF pair
at the end of each line). -/
def stripCr (l : List Char) : List Char :=
  if l.getLast? = some '\r' then l.dropLast else l

/-- The line iteration of `BufRead::lines` (also `str::lines`): split at
each `'\n'`, strip one `'\r'` at the end of every fragment that was
terminated by a `'\n'`, and drop the final fragment when it is empty
(a trailing newline opens no further line). -/
def rustLines (s : List Char) : List (List Char) :=
  let parts := splitLinesCore s
  parts.dropLast.map stripCr ++
    (match parts.getLast? with
     | some [] => []
     | some l => [l]
     | none => [])

/-! ### Spec-side definitions and helper predicates -/

/-- Index of the first `[` in a list of characters, `none` if there is
none. -/
def firstOpenIdx : List Char → Option Nat
  | [] => none
  | c :: rest => if c = '[' then some 0 else (firstOpenIdx rest).map (· + 1)

/-- Modelled from the spec wording for header detection: a line is a
header iff its first `[` is followed, at distance at least two, by its
last `]`; the capture is the substring strictly between the first `[`
and the last `]` of the line. -/
def specCaptureProfile (l : List Char) : Option (List Char) :=
  match firstOpenIdx l, lastCloseIdx l with
  | some i, some j =>
    if i + 2 ≤ j then some ((l.drop (i + 1)).take (j - (i + 1))) else none
  | _, _ => none

/-- A profile name as hypothesised by the round-trip property: non-empty
and free of brackets and newlines. -/
abbrev goodName (n : List Char) : Prop :=
  n ≠ [] ∧ '[' ∉ n ∧ ']' ∉ n ∧ '\n' ∉ n

/-- A body line as hypothesised by the round-trip property: non-empty,
free of brackets and newlines, and not ending in a carriage return. -/
abbrev goodLine (l : List Char) : Prop :=
  l ≠ [] ∧ '[' ∉ l ∧ ']' ∉ l ∧ '\n' ∉ l ∧ l.getLast? ≠ some '\r'

/-- A credential all of whose components satisfy the round-trip
hypotheses. -/
abbrev goodCred (r : Credential) : Prop :=
  goodName r.profile ∧ ∀ l ∈ r.lines, goodLine l

/-- The hypotheses of the round-trip claim exactly as stated: every
record has a non-empty section name, and the names and body lines are
non-empty and contain no `[` or `]`. -/
abbrev bracketFreeStore (S : ConfigFile) : Prop :=
  ∀ r ∈ S.credentials,
    (r.profile ≠ [] ∧ '[' ∉ r.profile ∧ ']' ∉ r.profile) ∧
    ∀ l ∈ r.lines, l ≠ [] ∧ '[' ∉ l ∧ ']' ∉ l

/-- Modelled from the claim wording for blank-line separation: the lines
of the serialized store are the lines of each rendered record with
exactly one blank line between consecutive records. -/
def oneBlankLineSeparated (crs : List Credential) : Prop :=
  rustLines (ConfigFile.to_string ⟨crs⟩)
    = List.intercalate [[]] (crs.map (fun r => rustLines r.to_string))

/-- The line sequence of the serialized store, record by record: each
record contributes its header line and its body lines; one separator
blank line stands between records, preceded by one extra blank line when
the earlier record has an empty body (its rendering already ends in a
newline). -/
def serLines : List Credential → List (List Char)
  | [] => []
  | [r] => ('[' :: (r.profile ++ [']'])) :: r.lines
  | r :: r2 :: rs =>
    (('[' :: (r.profile ++ [']'])) :: r.lines)
      ++ (if r.lines = [] then [[], []] else [[]]) ++ serLines (r2 :: rs)

/-! ### Small list lemmas -/

theorem intercalate_nil_ (sep : List Char) : List.intercalate sep ([] : List (List Char)) = [] := by
  simp [List.intercalate]

theorem intercalate_single (sep a : List Char) : List.intercalate sep [a] = a := by
  simp [List.intercalate]

theorem intercalate_cons2 (sep a b : List Char) (t : List (List Char)) :
    List.intercalate sep (a :: b :: t) = a ++ sep ++ List.intercalate sep (b :: t) := by
  simp [List.intercalate, List.intersperse]

/-! ### Store algebra: remove, append -/

/-- C3: the records of `remove_credential n` are exactly the records of
the store whose profile differs from `n`, as a subsequence in original
order; if no record carries the name, the store is returned unchanged. -/
theorem claim_C3_remove_filter (S : ConfigFile) (n : List Char) :
    (S.remove_credential n).credentials.Sublist S.credentials ∧
    (∀ c, c ∈ (S.remove_credential n).credentials ↔ c ∈ S.credentials ∧ c.profile ≠ n) ∧
    (S.remove_credential n).credentials
      = S.credentials.filter (fun c => decide (c.profile ≠ n)) ∧
    ((∀ c ∈ S.credentials, c.profile ≠ n) → S.remove_credential n = S) := by
  refine ⟨List.filter_sublist _, ?_, rfl, ?_⟩
  · intro c
    simp [ConfigFile.remove_credential, List.mem_filter]
  · intro h
    cases S with
    | mk creds =>
      simp only [ConfigFile.remove_credential, ConfigFile.mk.injEq]
      exact List.filter_eq_self.mpr (fun c hc => by simpa using h c hc)

theorem claim_C3_remove_filter_witness :
    ConfigFile.remove_credential ⟨[⟨['a'], []⟩, ⟨['b'], []⟩]⟩ ['c']
      = ⟨[⟨['a'], []⟩, ⟨['b'], []⟩]⟩ :=
  (claim_C3_remove_filter ⟨[⟨['a'], []⟩, ⟨['b'], []⟩]⟩ ['c']).2.2.2 (by decide)

/-- C9: `remove_credential` is idempotent. -/
theorem claim_C9_remove_idempotent (S : ConfigFile) (n : List Char) :
    (S.remove_credential n).remove_credential n = S.remove_credential n := by
  cases S with
  | mk creds =>
    simp only [ConfigFile.remove_credential, ConfigFile.mk.injEq]
    exact List.filter_eq_self.mpr (fun c hc => (List.mem_filter.mp hc).2)

/-- C7: appending a credential named `n` and then removing `n` is the
same as removing `n` directly: the append is erased together with every
pre-existing record of that name. -/
theorem claim_C7_append_remove (S : ConfigFile) (r : Credential) (n : List Char)
    (h : r.profile = n) :
    (S.set_credential r).remove_credential n = S.remove_credential n := by
  cases S with
  | mk creds =>
    simp [ConfigFile.set_credential, ConfigFile.remove_credential, List.filter_append, h]

theorem claim_C7_append_remove_witness :
    (ConfigFile.set_credential ⟨[⟨['a'], [['x']]⟩]⟩ ⟨['a'], [['y']]⟩).remove_credential ['a']
      = ConfigFile.remove_credential ⟨[⟨['a'], [['x']]⟩]⟩ ['a'] :=
  claim_C7_append_remove ⟨[⟨['a'], [['x']]⟩]⟩ ⟨['a'], [['y']]⟩ ['a'] rfl

/-! ### Serialization shape (C4) -/

/-- C4 counterexample: the store `("tanaka", ["foo","bar"])` does
serialize to `[tanaka]\nfoo\nbar`, but that string has 16 characters,
not 15 as the claim states. -/
theorem claim_C4_counterexample :
    ConfigFile.to_string ⟨[⟨"tanaka".toList, ["foo".toList, "bar".toList]⟩]⟩
        = "[tanaka]\nfoo\nbar".toList ∧
    (ConfigFile.to_string ⟨[⟨"tanaka".toList, ["foo".toList, "bar".toList]⟩]⟩).length ≠ 15 := by
  refine ⟨by decide, by decide⟩

/-- C4 (amended: the concrete serialization has 16 characters, not 15):
each record renders as `[name]` + newline + body joined by newlines;
records are joined with one double newline and nothing is added before
the first or after the last; concretely, the one-record store
`("tanaka", ["foo","bar"])` serializes to the 16-character string
`[tanaka]\nfoo\nbar`, and an empty body renders as a bare header line
followed by the newline only. -/
theorem claim_C4_serialize_shape :
    ConfigFile.to_string ⟨[⟨"tanaka".toList, ["foo".toList, "bar".toList]⟩]⟩
        = "[tanaka]\nfoo\nbar".toList ∧
    ("[tanaka]\nfoo\nbar".toList).length = 16 ∧
    (∀ n, Credential.to_string ⟨n, []⟩ = '[' :: (n ++ [']', '\n'])) ∧
    (∀ p ls, Credential.to_string ⟨p, ls⟩
        = '[' :: (p ++ [']', '\n'] ++ List.intercalate ['\n'] ls)) ∧
    (∀ r1 r2 : Credential, ConfigFile.to_string ⟨[r1, r2]⟩
        = r1.to_string ++ '\n' :: '\n' :: r2.to_string) := by
  refine ⟨by decide, by decide, ?_, fun p ls => rfl, ?_⟩
  · intro n
    simp [Credential.to_string, intercalate_nil_]
  · intro r1 r2
    simp [ConfigFile.to_string, intercalate_cons2, intercalate_single]

/-! ### Fail-fast error propagation (C8) -/

theorem from_read_results_error {ε : Type} (e : ε) (post : List (Except ε (List Char))) :
    ∀ (pre : List (List Char)) (p : List Char) (acc : List (List Char))
      (cr : List Credential),
      ConfigFile.from_read_results ((pre.map Except.ok) ++ Except.error e :: post) p acc cr
        = Except.error e := by
  intro pre
  induction pre with
  | nil => intro p acc cr; rfl
  | cons l rest ih =>
    intro p acc cr
    simp only [List.map_cons, List.cons_append, ConfigFile.from_read_results]
    cases h : capture_profile l with
    | some q => simpa [h] using ih q [] (ConfigFile.add_credential p acc cr)
    | none =>
      by_cases hl : l = [] <;> simp [h, hl, ih]

/-- C8: if any line read fails, the parser propagates the first read
error as its whole result and yields no records parsed from the earlier
lines. -/
theorem claim_C8_fail_fast {ε : Type} (pre : List (List Char)) (e : ε)
    (post : List (Except ε (List Char))) :
    ConfigFile.from_path ((pre.map Except.ok) ++ Except.error e :: post)
      = Except.error e := by
  unfold ConfigFile.from_path
  rw [from_read_results_error]
  rfl

/-- Sanity link between the fallible reader and the pure parser: on an
error-free source, `from_path` parses exactly as `from_lines`. -/
theorem from_path_map_ok (input : List (List Char)) :
    ConfigFile.from_path ((input.map Except.ok) : List (Except Unit (List Char)))
      = Except.ok (ConfigFile.from_lines input) := by
  suffices h : ∀ (p : List Char) (acc : List (List Char)) (cr : List Credential),
      ConfigFile.from_read_results ((input.map Except.ok) : List (Except Unit (List Char))) p acc cr
        = Except.ok (ConfigFile.from_lines_loop input p acc cr) by
    simp [ConfigFile.from_path, ConfigFile.from_lines, h, Except.map]
  induction input with
  | nil => intro p acc cr; rfl
  | cons l rest ih =>
    intro p acc cr
    simp only [List.map_cons, ConfigFile.from_read_results, ConfigFile.from_lines_loop]
    cases h : capture_profile l with
    | some q => simp [h, ih]
    | none => by_cases hl : l = [] <;> simp [h, hl, ih]

/-! ### Parser invariants (C6, C10) -/

theorem add_credential_profiles (p : List Char) (acc : List (List Char))
    (cr : List Credential) (h : ∀ r ∈ cr, r.profile ≠ []) :
    ∀ r ∈ ConfigFile.add_credential p acc cr, r.profile ≠ [] := by
  intro r hr
  unfold ConfigFile.add_credential at hr
  by_cases hp : p = []
  · exact h r (by simpa [hp] using hr)
  · simp only [hp, if_false, List.mem_append, List.mem_singleton] at hr
    rcases hr with hr | hr
    · exact h r hr
    · subst hr; exact hp

theorem from_lines_loop_profiles :
    ∀ (input : List (List Char)) (p : List Char) (acc : List (List Char))
      (cr : List Credential), (∀ r ∈ cr, r.profile ≠ []) →
      ∀ r ∈ ConfigFile.from_lines_loop input p acc cr, r.profile ≠ [] := by
  intro input
  induction input with
  | nil => intro p acc cr h; exact add_credential_profiles p acc cr h
  | cons l rest ih =>
    intro p acc cr h
    simp only [ConfigFile.from_lines_loop]
    cases hc : capture_profile l with
    | some q => exact ih q [] _ (add_credential_profiles p acc cr h)
    | none =>
      by_cases hl : l = []
      · simpa [hl] using ih p acc cr h
      · simpa [hl] using ih p (acc ++ [l]) cr h

theorem from_lines_loop_acc_irrel :
    ∀ (input : List (List Char)) (acc acc' : List (List Char)) (cr : List Credential),
      ConfigFile.from_lines_loop input [] acc cr
        = ConfigFile.from_lines_loop input [] acc' cr := by
  intro input
  induction input with
  | nil => intro acc acc' cr; rfl
  | cons l rest ih =>
    intro acc acc' cr
    simp only [ConfigFile.from_lines_loop]
    cases hc : capture_profile l with
    | some q => rfl
    | none =>
      by_cases hl : l = []
      · simpa [hl] using ih acc acc' cr
      · simpa [hl] using ih (acc ++ [l]) (acc' ++ [l]) cr

theorem from_lines_loop_leading :
    ∀ (leading : List (List Char)), (∀ l ∈ leading, capture_profile l = none) →
      ∀ (rest : List (List Char)) (acc : List (List Char)) (cr : List Credential),
        ConfigFile.from_lines_loop (leading ++ rest) [] acc cr
          = ConfigFile.from_lines_loop rest [] [] cr := by
  intro leading
  induction leading with
  | nil => intro _ rest acc cr; exact from_lines_loop_acc_irrel rest acc [] cr
  | cons l t ih =>
    intro h rest acc cr
    have hl : capture_profile l = none := h l (by simp)
    have ht : ∀ x ∈ t, capture_profile x = none := fun x hx => h x (by simp [hx])
    simp only [List.cons_append, ConfigFile.from_lines_loop, hl]
    by_cases hnil : l = [] <;> simp [hnil, ih ht]

/-- C6: every record the parser emits has a non-empty section name;
non-header lines before the first header are attributed to no record, so
an input of only such lines (every line fails the header pattern) parses
to zero records. -/
theorem claim_C6_nonempty_names (input : List (List Char)) :
    (∀ r ∈ (ConfigFile.from_lines input).credentials, r.profile ≠ []) ∧
    (∀ rest, (∀ l ∈ input, capture_profile l = none) →
        ConfigFile.from_lines (input ++ rest) = ConfigFile.from_lines rest) ∧
    ((∀ l ∈ input, capture_profile l = none) → ConfigFile.from_lines input = ⟨[]⟩) := by
  refine ⟨?_, ?_, ?_⟩
  · exact from_lines_loop_profiles input [] [] [] (by simp)
  · intro rest h
    simp only [ConfigFile.from_lines]
    rw [from_lines_loop_leading input h rest [] []]
  · intro h
    have := from_lines_loop_leading input h [] [] []
    simp only [ConfigFile.from_lines]
    rw [List.append_nil] at this
    rw [this]
    rfl

theorem claim_C6_nonempty_names_witness :
    ConfigFile.from_lines [['x'], [' ', ' ']] = ⟨[]⟩ :=
  (claim_C6_nonempty_names [['x'], [' ', ' ']]).2.2 (by decide)

/-- C10: the parser skips a line as blank only when it has length zero; a
non-header line of whitespace such as a single space is appended verbatim
to the pending body; concretely `"[a]"` then `" "` parses to the single
record `("a", [" "])`. -/
theorem claim_C10_blank_is_empty_only :
    (∀ l, capture_profile l = none → l ≠ [] →
        ∀ (rest : List (List Char)) (p : List Char) (acc : List (List Char))
          (cr : List Credential),
          ConfigFile.from_lines_loop (l :: rest) p acc cr
            = ConfigFile.from_lines_loop rest p (acc ++ [l]) cr) ∧
    (∀ (rest : List (List Char)) (p : List Char) (acc : List (List Char))
        (cr : List Credential),
        ConfigFile.from_lines_loop ([] :: rest) p acc cr
          = ConfigFile.from_lines_loop rest p acc cr) ∧
    capture_profile [' '] = none ∧
    ConfigFile.from_lines [['[', 'a', ']'], [' ']] = ⟨[⟨['a'], [[' ']]⟩]⟩ := by
  refine ⟨?_, ?_, rfl, by decide⟩
  · intro l hc hne rest p acc cr
    simp [ConfigFile.from_lines_loop, hc, hne]
  · intro rest p acc cr
    rfl

theorem claim_C10_blank_is_empty_only_witness :
    ConfigFile.from_lines_loop [[' ']] ['a'] [] [] =
      ConfigFile.from_lines_loop [] ['a'] [[' ']] [] :=
  claim_C10_blank_is_empty_only.1 [' '] rfl (by decide) [] ['a'] [] []

theorem takeWhile_ne_newline (r : List Char) (h : '\n' ∉ r) :
    r.takeWhile (fun c => decide (c ≠ '\n')) = r :=
  List.takeWhile_eq_self_iff.mpr
    (fun _x hx => decide_eq_true (fun he => h (he ▸ hx)))

theorem greedyBracketEnd_of_ne_newline (t : List Char) (h : '\n' ∉ t) :
    greedyBracketEnd t
      = match lastCloseIdx t with
        | some m => if 1 ≤ m then some (t.take m) else none
        | none => none := by
  unfold greedyBracketEnd
  rw [takeWhile_ne_newline t h]

theorem specCaptureProfile_lastClose_none (l : List Char) (h : lastCloseIdx l = none) :
    specCaptureProfile l = none := by
  unfold specCaptureProfile
  rw [h]
  cases firstOpenIdx l <;> rfl

theorem specCaptureProfile_lastClose_zero (l : List Char) (h : lastCloseIdx l = some 0) :
    specCaptureProfile l = none := by
  unfold specCaptureProfile
  rw [h]
  cases firstOpenIdx l with
  | none => rfl
  | some i =>
    show (if i + 2 ≤ 0 then some ((l.drop (i + 1)).take (0 - (i + 1))) else none) = none
    rw [if_neg (by omega)]

theorem specCaptureProfile_open (rest : List Char) :
    specCaptureProfile ('[' :: rest)
      = match lastCloseIdx rest with
        | some m => if 1 ≤ m then some (rest.take m) else none
        | none => none := by
  have hf : firstOpenIdx ('[' :: rest) = some 0 := by simp [firstOpenIdx]
  cases hg : lastCloseIdx rest with
  | none =>
    have hl : lastCloseIdx ('[' :: rest) = none := by simp [lastCloseIdx, hg]
    unfold specCaptureProfile
    rw [hf, hl]
  | some m =>
    have hl : lastCloseIdx ('[' :: rest) = some (m + 1) := by simp [lastCloseIdx, hg]
    unfold specCaptureProfile
    rw [hf, hl]
    show (if 0 + 2 ≤ m + 1 then
            some ((('[' :: rest).drop (0 + 1)).take (m + 1 - (0 + 1))) else none)
        = if 1 ≤ m then some (rest.take m) else none
    by_cases hm : 1 ≤ m
    · rw [if_pos (by omega), if_pos hm]
      rfl
    · rw [if_neg (by omega), if_neg hm]

theorem specCaptureProfile_cons (c : Char) (rest : List Char) (hop : c ≠ '[') :
    specCaptureProfile (c :: rest) = specCaptureProfile rest := by
  cases hfo : firstOpenIdx rest with
  | none =>
    have hf : firstOpenIdx (c :: rest) = none := by simp [firstOpenIdx, hop, hfo]
    unfold specCaptureProfile
    rw [hf, hfo]
  | some i =>
    have hf : firstOpenIdx (c :: rest) = some (i + 1) := by
      simp [firstOpenIdx, hop, hfo]
    cases hg : lastCloseIdx rest with
    | some j =>
      have hl : lastCloseIdx (c :: rest) = some (j + 1) := by simp [lastCloseIdx, hg]
      unfold specCaptureProfile
      rw [hf, hfo, hl, hg]
      show (if i + 1 + 2 ≤ j + 1 then
              some (((c :: rest).drop (i + 1 + 1)).take (j + 1 - (i + 1 + 1))) else none)
          = if i + 2 ≤ j then some ((rest.drop (i + 1)).take (j - (i + 1))) else none
      by_cases hij : i + 2 ≤ j
      · rw [if_pos (by omega), if_pos hij]
        have harith : j + 1 - (i + 1 + 1) = j - (i + 1) := by omega
        rw [harith]
        rfl
      · rw [if_neg (by omega), if_neg hij]
    | none =>
      by_cases hc : c = ']'
      · have hl : lastCloseIdx (c :: rest) = some 0 := by simp [lastCloseIdx, hg, hc]
        unfold specCaptureProfile
        rw [hf, hfo, hl, hg]
        show (if i + 1 + 2 ≤ 0 then
                some (((c :: rest).drop (i + 1 + 1)).take (0 - (i + 1 + 1))) else none)
            = none
        rw [if_neg (by omega)]
      · have hl : lastCloseIdx (c :: rest) = none := by simp [lastCloseIdx, hg, hc]
        unfold specCaptureProfile
        rw [hf, hfo, hl, hg]

/-- C2: on any line (a line holds no newline character), the regex
classifier agrees everywhere with the spec-side description. -/
theorem claim_C2_greedy_header (l : List Char) (h : '\n' ∉ l) :
    capture_profile l = specCaptureProfile l := by
  induction l with
  | nil => rfl
  | cons c rest ih =>
    have hrest : '\n' ∉ rest := fun hh => h (List.mem_cons_of_mem c hh)
    by_cases hop : c = '['
    · subst hop
      rw [specCaptureProfile_open]
      show (match greedyBracketEnd rest with
            | some cap => some cap
            | none => capture_profile rest)
          = match lastCloseIdx rest with
            | some m => if 1 ≤ m then some (rest.take m) else none
            | none => none
      rw [greedyBracketEnd_of_ne_newline rest hrest]
      cases hg : lastCloseIdx rest with
      | none =>
        show capture_profile rest = _
        rw [ih hrest]
        exact specCaptureProfile_lastClose_none rest hg
      | some m =>
        show (match (if 1 ≤ m then some (rest.take m) else none) with
              | some cap => some cap
              | none => capture_profile rest)
            = if 1 ≤ m then some (rest.take m) else none
        by_cases hm : 1 ≤ m
        · rw [if_pos hm]
        · rw [if_neg hm]
          show capture_profile rest = _
          rw [ih hrest]
          have hm0 : m = 0 := by omega
          subst hm0
          exact specCaptureProfile_lastClose_zero rest hg
    · rw [specCaptureProfile_cons c rest hop, ← ih hrest]
      simp [capture_profile, hop]

theorem claim_C2_greedy_header_witness :
    capture_profile "x[a]b[c]d".toList = specCaptureProfile "x[a]b[c]d".toList :=
  claim_C2_greedy_header "x[a]b[c]d".toList (by decide)

/-! ### Lines of a serialized store -/

theorem splitLinesCore_ne_nil (s : List Char) : splitLinesCore s ≠ [] := by
  cases s with
  | nil => simp [splitLinesCore]
  | cons c rest =>
    by_cases hc : c = '\n'
    · simp [splitLinesCore, hc]
    · cases hcore : splitLinesCore rest with
      | nil => simp [splitLinesCore, hc, hcore]
      | cons l ls => simp [splitLinesCore, hc, hcore]

theorem splitLinesCore_no_newline (A : List Char) (h : '\n' ∉ A) :
    splitLinesCore A = [A] := by
  induction A with
  | nil => rfl
  | cons c rest ih =>
    have hc : c ≠ '\n' := fun hh => h (hh ▸ List.mem_cons_self c rest)
    have hrest : '\n' ∉ rest := fun hh => h (List.mem_cons_of_mem c hh)
    simp only [splitLinesCore, ih hrest]
    rw [if_neg hc]

theorem splitLinesCore_append (A B : List Char) (h : '\n' ∉ A) :
    splitLinesCore (A ++ '\n' :: B) = A :: splitLinesCore B := by
  induction A with
  | nil => rfl
  | cons c rest ih =>
    have hc : c ≠ '\n' := fun hh => h (hh ▸ List.mem_cons_self c rest)
    have hrest : '\n' ∉ rest := fun hh => h (List.mem_cons_of_mem c hh)
    show splitLinesCore (c :: (rest ++ '\n' :: B)) = (c :: rest) :: splitLinesCore B
    simp only [splitLinesCore, ih hrest]
    rw [if_neg hc]

theorem rustLines_append (A B : List Char) (h : '\n' ∉ A) :
    rustLines (A ++ '\n' :: B) = stripCr A :: rustLines B := by
  unfold rustLines
  rw [splitLinesCore_append A B h]
  cases hp : splitLinesCore B with
  | nil => exact absurd hp (splitLinesCore_ne_nil B)
  | cons p ps =>
    dsimp only
    rw [List.dropLast_cons₂, List.getLast?_cons_cons, List.map_cons, List.cons_append]

theorem rustLines_single (A : List Char) (h : '\n' ∉ A) (hne : A ≠ []) :
    rustLines A = [A] := by
  unfold rustLines
  rw [splitLinesCore_no_newline A h]
  cases A with
  | nil => exact absurd rfl hne
  | cons c rest => rfl

theorem rustLines_nil : rustLines [] = [] := rfl

theorem stripCr_goodLine (l : List Char) (h : goodLine l) : stripCr l = l := by
  unfold stripCr
  rw [if_neg h.2.2.2.2]

theorem rustLines_body_append (l : List Char) (ls : List (List Char)) (T : List Char)
    (h : ∀ x ∈ l :: ls, goodLine x) :
    rustLines (List.intercalate ['\n'] (l :: ls) ++ '\n' :: T)
      = (l :: ls) ++ rustLines T := by
  induction ls generalizing l with
  | nil =>
    rw [intercalate_single, rustLines_append l T (h l (by simp)).2.2.2.1,
      stripCr_goodLine l (h l (by simp))]
    rfl
  | cons l2 t ih =>
    have hl : goodLine l := h l (by simp)
    have h2 : ∀ x ∈ l2 :: t, goodLine x :=
      fun x hx => h x (by simp [List.mem_cons] at hx ⊢; tauto)
    rw [intercalate_cons2]
    have hassoc : (l ++ ['\n'] ++ List.intercalate ['\n'] (l2 :: t)) ++ '\n' :: T
        = l ++ '\n' :: (List.intercalate ['\n'] (l2 :: t) ++ '\n' :: T) := by
      simp [List.append_assoc]
    rw [hassoc, rustLines_append l _ hl.2.2.2.1, stripCr_goodLine l hl, ih l2 h2]
    rfl

theorem rustLines_body_end (ls : List (List Char)) (h : ∀ x ∈ ls, goodLine x) :
    rustLines (List.intercalate ['\n'] ls) = ls := by
  induction ls with
  | nil => rfl
  | cons l t ih =>
    cases t with
    | nil =>
      rw [intercalate_single]
      exact rustLines_single l (h l (by simp)).2.2.2.1 (h l (by simp)).1
    | cons l2 t2 =>
      have hl : goodLine l := h l (by simp)
      have h2 : ∀ x ∈ l2 :: t2, goodLine x :=
        fun x hx => h x (by simp [List.mem_cons] at hx ⊢; tauto)
      rw [intercalate_cons2]
      have hassoc : l ++ ['\n'] ++ List.intercalate ['\n'] (l2 :: t2)
          = l ++ '\n' :: List.intercalate ['\n'] (l2 :: t2) := by
        simp
      rw [hassoc, rustLines_append l _ hl.2.2.2.1, stripCr_goodLine l hl, ih h2]

theorem to_string_decomp (r : Credential) :
    r.to_string = ('[' :: (r.profile ++ [']'])) ++ '\n' :: List.intercalate ['\n'] r.lines := by
  simp [Credential.to_string]

theorem header_no_newline (p : List Char) (hp : goodName p) :
    '\n' ∉ ('[' :: (p ++ [']'])) := by
  intro hh
  rcases List.mem_cons.mp hh with h1 | h2
  · exact absurd h1 (by decide)
  · rcases List.mem_append.mp h2 with h3 | h4
    · exact hp.2.2.2 h3
    · exact absurd (List.mem_singleton.mp h4) (by decide)

theorem stripCr_header (p : List Char) :
    stripCr ('[' :: (p ++ [']'])) = '[' :: (p ++ [']'])  := by
  unfold stripCr
  have hlast : ('[' :: (p ++ [']'])).getLast? = some ']' := by
    rw [← List.cons_append]
    exact List.getLast?_concat _
  rw [hlast, if_neg (by decide)]

theorem rustLines_newline_cons (T : List Char) :
    rustLines ('\n' :: T) = [] :: rustLines T := by
  have h := rustLines_append [] T (by simp)
  simpa [stripCr] using h

theorem rustLines_body_append_ne (ls : List (List Char)) (h : ∀ x ∈ ls, goodLine x)
    (hne : ls ≠ []) (T : List Char) :
    rustLines (List.intercalate ['\n'] ls ++ '\n' :: T) = ls ++ rustLines T := by
  cases ls with
  | nil => exact absurd rfl hne
  | cons l t => exact rustLines_body_append l t T h

theorem rustLines_to_string (crs : List Credential) (h : ∀ r ∈ crs, goodCred r) :
    rustLines (ConfigFile.to_string ⟨crs⟩) = serLines crs := by
  induction crs with
  | nil => rfl
  | cons r rs ih =>
    have hr : goodCred r := h r (by simp)
    have hrs : ∀ x ∈ rs, goodCred x := fun x hx => h x (by simp [hx])
    cases rs with
    | nil =>
      have h1 : ConfigFile.to_string ⟨[r]⟩ = r.to_string := by
        simp [ConfigFile.to_string, intercalate_single]
      rw [h1, to_string_decomp, rustLines_append _ _ (header_no_newline r.profile hr.1),
        stripCr_header, rustLines_body_end r.lines hr.2]
      rfl
    | cons r2 rs2 =>
      have h2 : ConfigFile.to_string ⟨r :: r2 :: rs2⟩
          = r.to_string ++ '\n' :: '\n' :: ConfigFile.to_string ⟨r2 :: rs2⟩ := by
        simp [ConfigFile.to_string, intercalate_cons2]
      rw [h2, to_string_decomp]
      have hassoc :
          ((('[' :: (r.profile ++ [']'])) ++ '\n' :: List.intercalate ['\n'] r.lines)
              ++ '\n' :: '\n' :: ConfigFile.to_string ⟨r2 :: rs2⟩)
            = ('[' :: (r.profile ++ [']'])) ++ '\n' ::
                (List.intercalate ['\n'] r.lines
                  ++ '\n' :: '\n' :: ConfigFile.to_string ⟨r2 :: rs2⟩) := by
        simp
      rw [hassoc, rustLines_append _ _ (header_no_newline r.profile hr.1), stripCr_header]
      by_cases hls : r.lines = []
      · rw [hls, intercalate_nil_, List.nil_append, rustLines_newline_cons,
          rustLines_newline_cons, ih hrs]
        simp [serLines, hls]
      · rw [rustLines_body_append_ne r.lines hr.2 hls _, rustLines_newline_cons, ih hrs]
        simp [serLines, hls]

theorem capture_profile_no_open (l : List Char) (h : '[' ∉ l) :
    capture_profile l = none := by
  induction l with
  | nil => rfl
  | cons c rest ih =>
    have hc : c ≠ '[' := fun hh => h (hh ▸ List.mem_cons_self c rest)
    have hrest : '[' ∉ rest := fun hh => h (List.mem_cons_of_mem c hh)
    simp only [capture_profile]
    rw [if_neg hc]
    exact ih hrest

theorem lastCloseIdx_concat_close (n : List Char) (h : ']' ∉ n) :
    lastCloseIdx (n ++ [']']) = some n.length := by
  induction n with
  | nil => rfl
  | cons c rest ih =>
    have hrest : ']' ∉ rest := fun hh => h (List.mem_cons_of_mem c hh)
    show lastCloseIdx (c :: (rest ++ [']'])) = some (rest.length + 1)
    simp only [lastCloseIdx, ih hrest]

theorem capture_profile_header (n : List Char) (hn : goodName n) :
    capture_profile ('[' :: (n ++ [']'])) = some n := by
  have hnl : '\n' ∉ n ++ [']'] := by
    intro hh
    rcases List.mem_append.mp hh with h1 | h2
    · exact hn.2.2.2 h1
    · exact absurd (List.mem_singleton.mp h2) (by decide)
  have hg : greedyBracketEnd (n ++ [']']) = some n := by
    simp only [greedyBracketEnd]
    rw [takeWhile_ne_newline _ hnl, lastCloseIdx_concat_close n hn.2.2.1]
    show (if 1 ≤ n.length then some ((n ++ [']']).take n.length) else none) = some n
    rw [if_pos (show 1 ≤ n.length from List.length_pos.mpr hn.1), List.take_left]
  simp only [capture_profile]
  rw [if_pos trivial, hg]

theorem from_lines_loop_body (bs : List (List Char)) (hb : ∀ x ∈ bs, goodLine x) :
    ∀ (rest : List (List Char)) (p : List Char) (acc : List (List Char))
      (cr : List Credential),
      ConfigFile.from_lines_loop (bs ++ rest) p acc cr
        = ConfigFile.from_lines_loop rest p (acc ++ bs) cr := by
  induction bs with
  | nil => intro rest p acc cr; simp
  | cons b t ih =>
    intro rest p acc cr
    have hbg : goodLine b := hb b (by simp)
    have ht : ∀ x ∈ t, goodLine x := fun x hx => hb x (by simp [hx])
    have hcap : capture_profile b = none := capture_profile_no_open b hbg.2.1
    show ConfigFile.from_lines_loop (b :: (t ++ rest)) p acc cr = _
    simp only [ConfigFile.from_lines_loop, hcap]
    rw [if_neg hbg.1, ih ht rest p (acc ++ [b]) cr]
    simp

theorem add_credential_ne (p : List Char) (hp : p ≠ []) (acc : List (List Char))
    (cr : List Credential) :
    ConfigFile.add_credential p acc cr = cr ++ [⟨p, acc⟩] := by
  unfold ConfigFile.add_credential
  rw [if_neg hp]

theorem from_lines_loop_serLines (crs : List Credential) (h : ∀ r ∈ crs, goodCred r) :
    ∀ (p : List Char) (acc : List (List Char)) (cr : List Credential),
      ConfigFile.from_lines_loop (serLines crs) p acc cr
        = ConfigFile.add_credential p acc cr ++ crs := by
  induction crs with
  | nil => intro p acc cr; simp [serLines, ConfigFile.from_lines_loop]
  | cons r rs ih =>
    intro p acc cr
    have hr : goodCred r := h r (by simp)
    have hrs : ∀ x ∈ rs, goodCred x := fun x hx => h x (by simp [hx])
    have hcap := capture_profile_header r.profile hr.1
    have heta : (⟨r.profile, r.lines⟩ : Credential) = r := rfl
    cases rs with
    | nil =>
      show ConfigFile.from_lines_loop (('[' :: (r.profile ++ [']'])) :: r.lines) p acc cr = _
      simp only [ConfigFile.from_lines_loop, hcap]
      rw [← List.append_nil r.lines, from_lines_loop_body r.lines hr.2 [] r.profile []]
      show ConfigFile.add_credential r.profile ([] ++ r.lines)
            (ConfigFile.add_credential p acc cr)
          = ConfigFile.add_credential p acc cr ++ [r]
      rw [add_credential_ne r.profile hr.1.1]
      simp [heta]
    | cons r2 rs2 =>
      have hshape : serLines (r :: r2 :: rs2)
          = ('[' :: (r.profile ++ [']']))
              :: (r.lines ++ ((if r.lines = [] then [[], []] else [[]])
                    ++ serLines (r2 :: rs2))) := by
        simp [serLines]
      rw [hshape]
      simp only [ConfigFile.from_lines_loop, hcap]
      rw [from_lines_loop_body r.lines hr.2 _ r.profile []]
      by_cases hls : r.lines = []
      · rw [if_pos hls]
        show ConfigFile.from_lines_loop (serLines (r2 :: rs2)) r.profile ([] ++ r.lines)
              (ConfigFile.add_credential p acc cr)
            = ConfigFile.add_credential p acc cr ++ (r :: r2 :: rs2)
        rw [ih hrs, add_credential_ne r.profile hr.1.1]
        simp [heta]
      · rw [if_neg hls]
        show ConfigFile.from_lines_loop (serLines (r2 :: rs2)) r.profile ([] ++ r.lines)
              (ConfigFile.add_credential p acc cr)
            = ConfigFile.add_credential p acc cr ++ (r :: r2 :: rs2)
        rw [ih hrs, add_credential_ne r.profile hr.1.1]
        simp [heta]

/-- C1 counterexample: the store with the single record `("a", ["\n"])`
satisfies the claim's hypotheses (non-empty, bracket-free name and body
line) yet does not round-trip: its serialization `[a]\n\n` parses back to
the record `("a", [])`. -/
theorem claim_C1_counterexample :
    bracketFreeStore ⟨[⟨['a'], [['\n']]⟩]⟩ ∧
    ConfigFile.from_lines (rustLines (ConfigFile.to_string ⟨[⟨['a'], [['\n']]⟩]⟩))
      ≠ ⟨[⟨['a'], [['\n']]⟩]⟩ :=
  ⟨by decide, by decide⟩

/-- C1 (amended: names and body lines must additionally contain no
newline, and body lines must not end in a carriage return): for every
store whose section names and body lines are non-empty, bracket-free,
newline-free, and whose body lines do not end in `'\r'`, parsing the
lines of the serialized store yields exactly the record sequence of the
store — same records, same order. -/
theorem claim_C1_roundtrip (S : ConfigFile) (h : ∀ r ∈ S.credentials, goodCred r) :
    ConfigFile.from_lines (rustLines S.to_string) = S := by
  cases S with
  | mk crs =>
    show ConfigFile.from_lines (rustLines (ConfigFile.to_string ⟨crs⟩)) = ⟨crs⟩
    rw [rustLines_to_string crs h]
    simp only [ConfigFile.from_lines]
    rw [from_lines_loop_serLines crs h]
    rfl

theorem claim_C1_roundtrip_witness :
    ConfigFile.from_lines (rustLines (ConfigFile.to_string
        ⟨[⟨"tanaka".toList, ["foo".toList, "bar".toList]⟩, ⟨"saito".toList, []⟩]⟩))
      = ⟨[⟨"tanaka".toList, ["foo".toList, "bar".toList]⟩, ⟨"saito".toList, []⟩]⟩ :=
  claim_C1_roundtrip _ (by decide)

/-- C5 counterexample -/
theorem claim_C5_counterexample :
    ¬ oneBlankLineSeparated [⟨['a'], []⟩, ⟨['b'], [['x']]⟩] := by
  unfold oneBlankLineSeparated
  decide

/-- C5 (amended: the serializer inserts exactly the two-character
separator `"\n\n"` — one blank line at the text level — between
consecutive rendered records; the line-oriented view can show a second
blank line when the earlier record has an empty body, since its
rendering already ends in a newline): for every store with at least two
records, the serialization is the first rendered record, the separator,
then the serialization of the rest. -/
theorem claim_C5_separator (r : Credential) (rs : List Credential) (h : rs ≠ []) :
    ConfigFile.to_string ⟨r :: rs⟩
      = r.to_string ++ '\n' :: '\n' :: ConfigFile.to_string ⟨rs⟩ := by
  cases rs with
  | nil => exact absurd rfl h
  | cons r2 t => simp [ConfigFile.to_string, intercalate_cons2]

theorem claim_C5_separator_witness :
    ConfigFile.to_string ⟨[⟨['a'], []⟩, ⟨['b'], [['x']]⟩]⟩
      = Credential.to_string ⟨['a'], []⟩
        ++ '\n' :: '\n' :: ConfigFile.to_string ⟨[⟨['b'], [['x']]⟩]⟩ :=
  claim_C5_separator ⟨['a'], []⟩ [⟨['b'], [['x']]⟩] (by decide)
